import Mathlib

/-!
Verification of the acli command parsing and routing pipeline.

Shallow embedding of the three core components:
- the tokenizer (`tokenize`, from the final variant of the POSIX-like
  tokenizer source, the one without the metacharacter filter),
- the argument parser (`parseArgs` and its helpers from parser/args.ts),
- the command router (`extractCommandPath`, `findCommand` from
  router/registry.ts).

Strings are modeled as lists of characters (`Str`), so that `input.length`,
`input[i]`, `slice`, `startsWith` and friends have direct structural
counterparts.  JavaScript string indexing in the sources only ever walks
code units left to right, which the list traversal mirrors.
-/

namespace Acli

/-- Strings of the embedded program: a JS string as its list of characters. -/
abbrev Str := List Char

/-- The single-quote character, `'`. -/
def squote : Char := Char.ofNat 39

/-- The double-quote character, `"`. -/
def dquote : Char := Char.ofNat 34

/-- The backslash character. -/
def bslash : Char := Char.ofNat 92

/-- `MAX_COMMAND_LENGTH` from the tokenizer source. -/
def MAX_COMMAND_LENGTH : Nat := 10000

/-- `MAX_ARGS` from the tokenizer source. -/
def MAX_ARGS : Nat := 100

/-- `MAX_ARG_LENGTH` from the tokenizer source. -/
def MAX_ARG_LENGTH : Nat := 10000

/-- The JavaScript regular-expression class `\s` (the test the tokenizer
applies to each character): tab, line feed, vertical tab, form feed,
carriage return, space, no-break space, ogham space mark, the en-quad
through hair-space range, line separator, paragraph separator, narrow
no-break space, medium mathematical space, ideographic space, and the
byte-order mark. -/
def jsWhitespace (c : Char) : Bool :=
  let n := c.toNat
  n == 9 || n == 10 || n == 11 || n == 12 || n == 13 || n == 32 ||
  n == 0xa0 || n == 0x1680 ||
  (decide (0x2000 ≤ n) && decide (n ≤ 0x200a)) ||
  n == 0x2028 || n == 0x2029 || n == 0x202f || n == 0x205f ||
  n == 0x3000 || n == 0xfeff

/-- The distinct `PARSE_ERROR` failures the tokenizer can return.  Each
constructor corresponds to one distinct error message in the source:
`commandTooLong` to "Command exceeds maximum length of 10000 characters",
`argTooLong` to "Argument exceeds maximum length of 10000 characters",
`unclosedSingle` to "Unclosed single quote", `unclosedDouble` to
"Unclosed double quote", and `tooManyArgs` to "Too many arguments
(max: 100)".  All five carry the error code PARSE_ERROR. -/
inductive TokError where
  | commandTooLong
  | argTooLong
  | unclosedSingle
  | unclosedDouble
  | tooManyArgs
deriving DecidableEq, Repr

/-- The scan state of the tokenizer loop: the emitted tokens, the
accumulating current token, and the three mode booleans. -/
structure TokSt where
  tokens : List Str
  current : Str
  inSingleQuote : Bool
  inDoubleQuote : Bool
  isEscaped : Bool
deriving DecidableEq, Repr

/-- The state at the top of the tokenizer loop. -/
def initTokSt : TokSt := ⟨[], [], false, false, false⟩

/-- One iteration of the tokenizer's character loop, in the source's
branch order: pending escape, backslash, single quote, double quote,
whitespace (with the per-token length check at token completion), then
literal accumulation. -/
def tokStep (s : TokSt) (c : Char) : Except TokError TokSt :=
  if s.isEscaped then
    .ok { s with current := s.current ++ [c], isEscaped := false }
  else if c == bslash && !s.inSingleQuote then
    .ok { s with isEscaped := true }
  else if c == squote && !s.inDoubleQuote then
    .ok { s with inSingleQuote := !s.inSingleQuote }
  else if c == dquote && !s.inSingleQuote then
    .ok { s with inDoubleQuote := !s.inDoubleQuote }
  else if jsWhitespace c && !s.inSingleQuote && !s.inDoubleQuote then
    if s.current = [] then .ok s
    else if MAX_ARG_LENGTH < s.current.length then .error .argTooLong
    else .ok { s with tokens := s.tokens ++ [s.current], current := [] }
  else
    .ok { s with current := s.current ++ [c] }

/-- The tokenizer's character loop over the whole input. -/
def tokLoop (s : TokSt) : Str → Except TokError TokSt
  | [] => .ok s
  | c :: cs =>
    match tokStep s c with
    | .error e => .error e
    | .ok s2 => tokLoop s2 cs

/-- The code after the loop: unclosed-quote checks, the final-token push
(with its length check), then the token-count check. -/
def finishTokens (s : TokSt) : Except TokError (List Str) :=
  if s.inSingleQuote then .error .unclosedSingle
  else if s.inDoubleQuote then .error .unclosedDouble
  else
    match (if s.current = [] then .ok s.tokens
           else if MAX_ARG_LENGTH < s.current.length then .error .argTooLong
           else .ok (s.tokens ++ [s.current]) : Except TokError (List Str)) with
    | .error e => .error e
    | .ok ts => if MAX_ARGS < ts.length then .error .tooManyArgs else .ok ts

/-- `tokenize` from the tokenizer source: the input-length guard, the
character loop, and the finishing checks. -/
def tokenize (input : Str) : Except TokError (List Str) :=
  if MAX_COMMAND_LENGTH < input.length then .error .commandTooLong
  else
    match tokLoop initTokSt input with
    | .error e => .error e
    | .ok s => finishTokens s

/-- `tokens.join(" ")`: the tokens re-joined with single spaces. -/
def joinSpaces : List Str → Str
  | [] => []
  | [t] => t
  | t :: t2 :: ts => t ++ ' ' :: joinSpaces (t2 :: ts)

/-- A character the tokenizer treats as plain content: not whitespace,
not the escape character, and not a quote of either kind. -/
def plainChar (c : Char) : Bool :=
  !jsWhitespace c && !(c == bslash) && !(c == squote) && !(c == dquote)

/-- Measure used for the size invariant of the scan: each emitted token
costs its length plus one separator. -/
def tokensWeight (l : List Str) : Nat :=
  l.foldr (fun t a => t.length + 1 + a) 0

/-- The measure `tokensWeight` extended to a scan state, counting the
accumulating token as well. -/
def stWeight (s : TokSt) : Nat :=
  tokensWeight s.tokens + s.current.length

/-!
## Argument parser (parser/args.ts)

The parser consumes tokens and an argument definition map.  Field values
are validated by zod schemas; the model below embeds the zod subset the
parser relies on (`z.string()`, `z.boolean()`, `z.number()`, `z.array`,
`.optional()`, `.default(v)`) as the inductive `Zod`, together with the
runtime checks the parser performs on them (`unwrapSchema`, `hasDefault`,
`isBooleanSchema`, `isFlagSchema`, `isArraySchema`) and the final
object-level safeParse (`validateAll`).
-/

/-- A parsed or raw argument value. -/
inductive Value where
  | vstr : Str → Value
  | vbool : Bool → Value
  | vnum : Int → Value
  | varr : List Value → Value

/-- The zod schema subset the parser inspects and validates with. -/
inductive Zod where
  | zstring
  | zboolean
  | znumber
  | zarray (inner : Zod)
  | zoptional (inner : Zod)
  | zdefault (inner : Zod) (dflt : Value)

/-- `unwrapSchema`: strip `ZodOptional` and `ZodDefault` wrappers. -/
def unwrapSchema : Zod → Zod
  | .zoptional inner => unwrapSchema inner
  | .zdefault inner _ => unwrapSchema inner
  | s => s

/-- `hasDefault`: the wrapper chain contains a `ZodDefault`. -/
def hasDefault : Zod → Bool
  | .zdefault _ _ => true
  | .zoptional inner => hasDefault inner
  | _ => false

/-- `isBooleanSchema`: the unwrapped schema is a boolean. -/
def isBooleanSchema (s : Zod) : Bool :=
  match unwrapSchema s with
  | .zboolean => true
  | _ => false

/-- `isFlagSchema`: boolean with a default — presence alone means true. -/
def isFlagSchema (s : Zod) : Bool :=
  isBooleanSchema s && hasDefault s

/-- `isArraySchema`: the unwrapped schema is an array. -/
def isArraySchema (s : Zod) : Bool :=
  match unwrapSchema s with
  | .zarray _ => true
  | _ => false

/-- CLI metadata attached to a field (`ArgMeta`). -/
structure ArgMeta where
  positional : Option Nat
  short : Option Char
deriving DecidableEq, Repr

/-- A field schema: zod validator plus metadata (`ArgSchema`). -/
structure ArgSchema where
  schema : Zod
  meta : ArgMeta

/-- An argument definition map in declaration order (`ArgsDefinition`,
a plain JS record keyed by field name). -/
abbrev ArgsDef := List (Str × ArgSchema)

/-- Property lookup in the definition record. -/
def lookupDef : ArgsDef → Str → Option ArgSchema
  | [], _ => none
  | (n, s) :: rest, name => if n = name then some s else lookupDef rest name

/-- The raw-value record built during the scan (`rawValues`). -/
abbrev RawMap := List (Str × Value)

/-- Property write on the raw-value record: overwrite in place, or append
a new binding in insertion order. -/
def setRaw : RawMap → Str → Value → RawMap
  | [], name, v => [(name, v)]
  | (n, w) :: rest, name, v =>
    if n = name then (n, v) :: rest else (n, w) :: setRaw rest name v

/-- Property read on the raw-value record. -/
def lookupRaw : RawMap → Str → Option Value
  | [], _ => none
  | (n, w) :: rest, name => if n = name then some w else lookupRaw rest name

/-- The parser's validation-phase failures, all of error code
VALIDATION_ERROR.  Each constructor corresponds to one message shape in
the source: `noFlagOnly k` to "Option --no-k can only be used with
boolean flags", `unknownLong k` to "Unknown option: --k", `unknownShort c`
to "Unknown option: -c", `longNeedsValue k` to "Option --k requires a
value", `shortNeedsValue c` to "Option -c requires a value", and
`invalidValue path` to the zod issue message "Invalid value for path". -/
inductive ArgError where
  | noFlagOnly (key : Str)
  | unknownLong (key : Str)
  | unknownShort (c : Char)
  | longNeedsValue (key : Str)
  | shortNeedsValue (c : Char)
  | invalidValue (path : Str)
deriving DecidableEq, Repr

/-- The source's global replace of "-" by "_" on a key: hyphens mapped
to underscores. -/
def underscore (key : Str) : Str :=
  key.map fun c => if c = '-' then '_' else c

/-- Split the part of a long-option token after `--` at its first `=`
(the source's `indexOf("=", 2)` and surrounding slices): the key and the
optional inline value. -/
def splitEq : Str → Str × Option Str
  | [] => ([], none)
  | c :: rest =>
    if c = '=' then ([], some rest)
    else
      let (k, v) := splitEq rest
      (c :: k, v)

/-- `setArgValue`: append to an accumulating array for array-kind fields,
otherwise overwrite. -/
def setArgValue (raw : RawMap) (name : Str) (value : Str) (schema : Zod) : RawMap :=
  if isArraySchema schema then
    match lookupRaw raw name with
    | some (.varr vs) => setRaw raw name (.varr (vs ++ [.vstr value]))
    | _ => setRaw raw name (.varr [.vstr value])
  else setRaw raw name (.vstr value)

/-- `findArgByShortKey`: the first field (in declaration order) whose
`meta.short` is this character. -/
def findArgByShortKey : ArgsDef → Char → Option (Str × ArgSchema)
  | [], _ => none
  | (n, s) :: rest, c =>
    if s.meta.short = some c then some (n, s) else findArgByShortKey rest c

/-- Scan state of the token loop: raw values collected so far and the
positional-candidate list. -/
structure ScanSt where
  raw : RawMap
  positionals : List Str

/-- Outcome of scanning one short-option cluster character by character:
fully processed, or stopped at a value-taking alias with nothing left in
the token (the next whole token must be consumed), or failed. -/
inductive ShortOutcome where
  | done (raw : RawMap)
  | needsNext (name : Str) (schema : Zod) (key : Char) (raw : RawMap)
  | fail (e : ArgError)

/-- The inner character loop over a short-option cluster `-abc`:
unknown alias fails; flag aliases stack; the first value-taking alias
consumes the rest of the token (stripping one leading `=`) or defers to
the next token. -/
def scanShortChars (defs : ArgsDef) : List Char → RawMap → ShortOutcome
  | [], raw => .done raw
  | c :: cs, raw =>
    match findArgByShortKey defs c with
    | none => .fail (.unknownShort c)
    | some (name, as) =>
      if isFlagSchema as.schema then
        scanShortChars defs cs (setRaw raw name (.vbool true))
      else
        match cs with
        | [] => .needsNext name as.schema c raw
        | '=' :: v => .done (setArgValue raw name v as.schema)
        | v => .done (setArgValue raw name v as.schema)

/-- The literal token `--`. -/
def dashDash : Str := ['-', '-']

/-- The source's startsWith("no-") test together with its slice(3): the
part of a key after a leading `no-`, when the key has one. -/
def noDashTail : Str → Option Str
  | 'n' :: 'o' :: '-' :: nk => some nk
  | _ => none

/-- The token scan of `parseArgs`: one left-to-right pass classifying each
token as end-of-options marker, long option (with `--no-` negation),
short-option cluster, or positional candidate. -/
def scanTokens (defs : ArgsDef) : List Str → ScanSt → Except ArgError ScanSt
  | [], st => .ok st
  | t :: rest, st =>
    if t = dashDash then .ok ⟨st.raw, st.positionals ++ rest⟩
    else
      match t with
      | '-' :: '-' :: body =>
        let ki := splitEq body
        let argName := underscore ki.1
        (match lookupDef defs argName with
        | none =>
          (match noDashTail ki.1, ki.2 with
          | some nk, none =>
            if nk = [] then .error (.unknownLong ki.1)
            else
              (match lookupDef defs (underscore nk) with
              | some negatedSchema =>
                if isBooleanSchema negatedSchema.schema then
                  scanTokens defs rest ⟨setRaw st.raw (underscore nk) (.vbool false), st.positionals⟩
                else .error (.noFlagOnly nk)
              | none => .error (.unknownLong ki.1))
          | _, _ => .error (.unknownLong ki.1))
        | some argSchema =>
          if isFlagSchema argSchema.schema then
            scanTokens defs rest ⟨setRaw st.raw argName (.vbool true), st.positionals⟩
          else
            match ki.2 with
            | some v =>
              scanTokens defs rest ⟨setArgValue st.raw argName v argSchema.schema, st.positionals⟩
            | none =>
              match rest with
              | [] => .error (.longNeedsValue ki.1)
              | v :: rest2 =>
                scanTokens defs rest2 ⟨setArgValue st.raw argName v argSchema.schema, st.positionals⟩)
      | '-' :: c :: cs =>
        (match scanShortChars defs (c :: cs) st.raw with
        | .fail e => .error e
        | .done raw2 => scanTokens defs rest ⟨raw2, st.positionals⟩
        | .needsNext name schema key raw2 =>
          match rest with
          | [] => .error (.shortNeedsValue key)
          | v :: rest2 =>
            scanTokens defs rest2 ⟨setArgValue raw2 name v schema, st.positionals⟩)
      | _ => scanTokens defs rest ⟨st.raw, st.positionals ++ [t]⟩

/-- The positional map lookup: the last field (in declaration order)
declaring this positional index, as built by the source's `Map.set` loop. -/
def lookupPositionalDef (defs : ArgsDef) (pos : Nat) : Option (Str × ArgSchema) :=
  defs.foldl (fun acc e => if e.2.meta.positional = some pos then some e else acc) none

/-- Assignment of positional candidates: candidate `i` goes to the field
declared at positional index `i`, only if that field was not already set
by a named option. -/
def assignPositionals (defs : ArgsDef) (raw : RawMap) : List Str → Nat → RawMap
  | [], _ => raw
  | v :: rest, pos =>
    let raw2 :=
      match lookupPositionalDef defs pos with
      | some (name, _) =>
        if (lookupRaw raw name).isNone then setRaw raw name (.vstr v) else raw
      | none => raw
    assignPositionals defs raw2 rest (pos + 1)

/-- Model of zod's parse of one field value (`undefined` modeled as
`none`): strings, booleans and numbers accept exactly their own kind;
arrays parse elementwise; optional passes `undefined` through; a default
substitutes for `undefined` and is then parsed by the inner schema. -/
def zodField : Zod → Option Value → Except Unit (Option Value)
  | .zstring, v =>
    match v with
    | some (.vstr s) => .ok (some (.vstr s))
    | _ => .error ()
  | .zboolean, v =>
    match v with
    | some (.vbool b) => .ok (some (.vbool b))
    | _ => .error ()
  | .znumber, v =>
    match v with
    | some (.vnum n) => .ok (some (.vnum n))
    | _ => .error ()
  | .zarray inner, v =>
    match v with
    | some (.varr vs) =>
      match vs.mapM (fun x => zodField inner (some x)) with
      | .error e => .error e
      | .ok rs => .ok (some (.varr (rs.filterMap id)))
    | _ => .error ()
  | .zoptional inner, v =>
    match v with
    | none => .ok none
    | some x => zodField inner (some x)
  | .zdefault inner d, v =>
    match v with
    | none => zodField inner (some d)
    | some x => zodField inner (some x)

/-- The object-level safeParse: each declared field validated in
declaration order, first failure reported with the field's path; defined
results collected in declaration order. -/
def validateAll : ArgsDef → RawMap → Except ArgError (List (Str × Value))
  | [], _ => .ok []
  | (name, as) :: rest, raw =>
    match zodField as.schema (lookupRaw raw name) with
    | .error _ => .error (.invalidValue name)
    | .ok none => validateAll rest raw
    | .ok (some v) =>
      match validateAll rest raw with
      | .error e => .error e
      | .ok vs => .ok ((name, v) :: vs)

/-- `parseArgs`: the token scan, positional assignment, then validation. -/
def parseArgs (tokens : List Str) (defs : ArgsDef) : Except ArgError (List (Str × Value)) :=
  match scanTokens defs tokens ⟨[], []⟩ with
  | .error e => .error e
  | .ok st => validateAll defs (assignPositionals defs st.raw st.positionals 0)

/-!
## Command registry and router (router/registry.ts)
-/

/-- A command node: description, optional subcommand registry (an
insertion-ordered record of name to node), and whether a handler is
attached.  Argument schemas live beside this in the source but are
consumed only by the parser, which the embedding passes them to
directly. -/
inductive CommandDefinition where
  | mk (description : Str) (subcommands : Option (List (Str × CommandDefinition)))
      (hasHandler : Bool)

/-- A command registry: an insertion-ordered record of top-level names. -/
abbrev CommandRegistry := List (Str × CommandDefinition)

/-- The node's optional subcommand registry. -/
def CommandDefinition.subcommands : CommandDefinition → Option CommandRegistry
  | .mk _ s _ => s

/-- Property lookup in a registry record. -/
def lookupReg : CommandRegistry → Str → Option CommandDefinition
  | [], _ => none
  | (n, d) :: rest, name => if n = name then some d else lookupReg rest name

/-- `token.startsWith("-")`. -/
def startsWithDash : Str → Bool
  | '-' :: _ => true
  | _ => false

/-- The loop of `extractCommandPath`: stop at the first `-`-leading token
or the first token that is not a child of the current node; otherwise
descend and accumulate the path. -/
def extractCommandPathAux : Option CommandRegistry → List Str → List Str → List Str × List Str
  | _, [], acc => (acc, [])
  | reg, t :: rest, acc =>
    if startsWithDash t then (acc, t :: rest)
    else
      match reg with
      | none => (acc, t :: rest)
      | some r =>
        match lookupReg r t with
        | none => (acc, t :: rest)
        | some cmd => extractCommandPathAux cmd.subcommands rest (acc ++ [t])

/-- `extractCommandPath`: matched command path and untouched remaining
tokens. -/
def extractCommandPath (registry : CommandRegistry) (tokens : List Str) :
    List Str × List Str :=
  extractCommandPathAux (some registry) tokens []

/-- The walking loop of `findCommand` from the first matched node: stop
and return the current node when it has no subcommand map or the next
segment is not among its children. -/
def findCommandWalk (current : CommandDefinition) : List Str → CommandDefinition
  | [] => current
  | p :: rest =>
    match current.subcommands with
    | none => current
    | some sub =>
      match lookupReg sub p with
      | none => current
      | some next => findCommandWalk next rest

/-- `findCommand`: `null` on the empty path or an unknown first segment,
otherwise the deepest node reached along the path. -/
def findCommand (registry : CommandRegistry) (path : List Str) :
    Option CommandDefinition :=
  match path with
  | [] => none
  | p0 :: rest =>
    match lookupReg registry p0 with
    | none => none
    | some first => some (findCommandWalk first rest)

/-- Modelled from the spec for comparison with `findCommand` (the claim
about it speaks of "the longest prefix of the path that exists in the
tree"): the node sitting at exactly this nonempty path, if every segment
of the path exists, continued from a given node. -/
def nodeFromExact (n : CommandDefinition) : List Str → Option CommandDefinition
  | [] => some n
  | p :: rest =>
    match n.subcommands with
    | none => none
    | some sub =>
      match lookupReg sub p with
      | none => none
      | some next => nodeFromExact next rest

/-- Modelled from the spec: the node at exactly this path from the
registry root, `none` for the empty path or any missing segment. -/
def nodeAtExactPath (registry : CommandRegistry) : List Str → Option CommandDefinition
  | [] => none
  | p :: rest =>
    match lookupReg registry p with
    | none => none
    | some n => nodeFromExact n rest


/-!
## Concrete fixtures used by the claim theorems
-/

/-- Empty CLI metadata: not positional, no short alias. -/
def noMeta : ArgMeta := ⟨none, none⟩

/-- Leaf command `c` of the nested example registry. -/
def cmdC : CommandDefinition := .mk ['c'] none true

/-- Command `b` with subcommand `c`. -/
def cmdB : CommandDefinition := .mk ['b'] (some [(['c'], cmdC)]) true

/-- Command `a` with subcommand `b`. -/
def cmdA : CommandDefinition := .mk ['a'] (some [(['b'], cmdB)]) true

/-- The example registry with nested commands a, b, c, each with a
handler. -/
def regABC : CommandRegistry := [(['a'], cmdA)]


/-- Field name `verbose`. -/
def verboseName : Str := ['v', 'e', 'r', 'b', 'o', 's', 'e']

/-- Schema with one field `verbose`: a boolean flag defaulting to true. -/
def defsVerbose : ArgsDef := [(verboseName, ⟨.zdefault .zboolean (.vbool true), noMeta⟩)]

/-- Field name `tag`. -/
def tagName : Str := ['t', 'a', 'g']

/-- Schema with one array-of-strings field `tag`. -/
def defsTag : ArgsDef := [(tagName, ⟨.zarray .zstring, noMeta⟩)]

/-- Field name `x`. -/
def xName : Str := ['x']

/-- Schema with one plain string field `x`. -/
def defsX : ArgsDef := [(xName, ⟨.zstring, noMeta⟩)]

/-- Field name `file`. -/
def fileName : Str := ['f', 'i', 'l', 'e']

/-- Schema with one string field `file` at positional index 0. -/
def defsFile : ArgsDef := [(fileName, ⟨.zstring, ⟨some 0, none⟩⟩)]

/-!
## Tokenizer lemmas
-/

theorem plainChar_elim {c : Char} (h : plainChar c = true) :
    jsWhitespace c = false ∧ (c == bslash) = false ∧ (c == squote) = false ∧
      (c == dquote) = false := by
  revert h
  simp only [plainChar, Bool.and_eq_true, Bool.not_eq_true']
  exact fun h => ⟨h.1.1.1, h.1.1.2, h.1.2, h.2⟩

theorem tokStep_plain (s : TokSt) (c : Char) (hc : plainChar c = true)
    (h1 : s.inSingleQuote = false) (h2 : s.inDoubleQuote = false)
    (h3 : s.isEscaped = false) :
    tokStep s c = .ok { s with current := s.current ++ [c] } := by
  obtain ⟨hw, hb, hs, hd⟩ := plainChar_elim hc
  simp [tokStep, h1, h2, h3, hw, hb, hs, hd]

theorem tokLoop_plain (t : Str) : ∀ s : TokSt, t.all plainChar = true →
    s.inSingleQuote = false → s.inDoubleQuote = false → s.isEscaped = false →
    tokLoop s t = .ok { s with current := s.current ++ t } := by
  induction t with
  | nil => intro s _ _ _ _; simp [tokLoop]
  | cons c cs ih =>
    intro s hall h1 h2 h3
    rw [List.all_cons, Bool.and_eq_true] at hall
    obtain ⟨tk, cur, q1, q2, esc⟩ := s
    dsimp only at h1 h2 h3
    subst h1 h2 h3
    simp only [tokLoop, tokStep_plain ⟨tk, cur, false, false, false⟩ c hall.1 rfl rfl rfl]
    rw [ih ⟨tk, cur ++ [c], false, false, false⟩ hall.2 rfl rfl rfl]
    simp

theorem tokStep_space (s : TokSt) (h1 : s.inSingleQuote = false)
    (h2 : s.inDoubleQuote = false) (h3 : s.isEscaped = false)
    (h4 : s.current ≠ []) (h5 : s.current.length ≤ MAX_ARG_LENGTH) :
    tokStep s ' ' = .ok { s with tokens := s.tokens ++ [s.current], current := [] } := by
  simp [tokStep, h1, h2, h3, h4, Nat.not_lt.mpr h5,
    (by decide : ((' ' == bslash : Bool)) = false),
    (by decide : ((' ' == squote : Bool)) = false),
    (by decide : ((' ' == dquote : Bool)) = false),
    (by decide : jsWhitespace ' ' = true)]

theorem tokLoop_append (xs ys : Str) : ∀ s : TokSt, tokLoop s (xs ++ ys)
    = match tokLoop s xs with
      | .error e => .error e
      | .ok s2 => tokLoop s2 ys := by
  induction xs with
  | nil => intro s; simp [tokLoop]
  | cons c cs ih =>
    intro s
    simp only [List.cons_append, tokLoop]
    cases tokStep s c with
    | error e => rfl
    | ok s2 => exact ih s2

theorem joinSpaces_cons_of_ne (u : Str) {l : List Str} (h : l ≠ []) :
    joinSpaces (u :: l) = u ++ ' ' :: joinSpaces l := by
  cases l with
  | nil => exact absurd rfl h
  | cons v vs => rfl

theorem tokLoop_joinSpaces_concat (ts : List Str) (t : Str) :
    ∀ s : TokSt,
    (∀ u ∈ ts ++ [t], u ≠ [] ∧ u.length ≤ MAX_ARG_LENGTH ∧ u.all plainChar = true) →
    s.current = [] → s.inSingleQuote = false → s.inDoubleQuote = false →
    s.isEscaped = false →
    tokLoop s (joinSpaces (ts ++ [t])) = .ok ⟨s.tokens ++ ts, t, false, false, false⟩ := by
  induction ts with
  | nil =>
    intro s hall hc h1 h2 h3
    have ht := hall t (by simp)
    simp only [List.nil_append, joinSpaces]
    rw [tokLoop_plain t s ht.2.2 h1 h2 h3]
    obtain ⟨tk, cur, q1, q2, esc⟩ := s
    dsimp only at hc h1 h2 h3 ⊢
    subst hc h1 h2 h3
    simp
  | cons u us ih =>
    intro s hall hc h1 h2 h3
    have hu := hall u (by simp)
    have hrest : ∀ w ∈ us ++ [t], w ≠ [] ∧ w.length ≤ MAX_ARG_LENGTH ∧
        w.all plainChar = true := fun w hw => hall w (List.mem_cons_of_mem u hw)
    obtain ⟨tk, cur, q1, q2, esc⟩ := s
    dsimp only at hc h1 h2 h3
    subst hc h1 h2 h3
    rw [List.cons_append, joinSpaces_cons_of_ne u (by simp)]
    rw [tokLoop_append, tokLoop_plain u ⟨tk, [], false, false, false⟩ hu.2.2 rfl rfl rfl]
    dsimp only
    simp only [List.nil_append, tokLoop]
    rw [tokStep_space ⟨tk, u, false, false, false⟩ rfl rfl rfl hu.1 hu.2.1]
    dsimp only
    rw [ih ⟨tk ++ [u], [], false, false, false⟩ hrest rfl rfl rfl rfl]
    simp

theorem finishTokens_push (s : TokSt) (h1 : s.inSingleQuote = false)
    (h2 : s.inDoubleQuote = false) (h4 : s.current ≠ [])
    (h5 : s.current.length ≤ MAX_ARG_LENGTH)
    (h6 : s.tokens.length + 1 ≤ MAX_ARGS) :
    finishTokens s = .ok (s.tokens ++ [s.current]) := by
  have hlen : (s.tokens ++ [s.current]).length = s.tokens.length + 1 := by simp
  simp [finishTokens, h1, h2, h4, Nat.not_lt.mpr h5, hlen, Nat.not_lt.mpr h6]

theorem tokensWeight_append (l1 l2 : List Str) :
    tokensWeight (l1 ++ l2) = tokensWeight l1 + tokensWeight l2 := by
  induction l1 with
  | nil => simp [tokensWeight]
  | cons t ts ih => simp only [List.cons_append, tokensWeight, List.foldr_cons] at ih ⊢; omega

theorem joinSpaces_length {l : List Str} (h : l ≠ []) :
    (joinSpaces l).length + 1 = tokensWeight l := by
  induction l with
  | nil => exact absurd rfl h
  | cons t ts ih =>
    cases ts with
    | nil => simp [joinSpaces, tokensWeight]
    | cons t2 ts2 =>
      rw [joinSpaces_cons_of_ne t (by simp)]
      have h2 := ih (by simp)
      simp only [tokensWeight, List.foldr_cons] at h2 ⊢
      simp only [List.length_append, List.length_cons]
      omega

theorem tokenize_joinSpaces (ts : List Str)
    (hall : ∀ u ∈ ts, u ≠ [] ∧ u.length ≤ MAX_ARG_LENGTH ∧ u.all plainChar = true)
    (hcount : ts.length ≤ MAX_ARGS)
    (hlen : (joinSpaces ts).length ≤ MAX_COMMAND_LENGTH) :
    tokenize (joinSpaces ts) = .ok ts := by
  rcases eq_or_ne ts [] with rfl | hne
  · rfl
  · obtain ⟨init, last, rfl⟩ : ∃ i l, ts = i ++ [l] :=
      ⟨ts.dropLast, ts.getLast hne, (List.dropLast_append_getLast hne).symm⟩
    rw [tokenize, if_neg (Nat.not_lt.mpr hlen),
      tokLoop_joinSpaces_concat init last initTokSt hall rfl rfl rfl rfl]
    have h4 := hall last (by simp)
    have hc : init.length + 1 ≤ MAX_ARGS := by
      simpa using hcount
    have := finishTokens_push ⟨init, last, false, false, false⟩ rfl rfl h4.1 h4.2.1
      (by simpa using hc)
    simpa [initTokSt] using this

theorem tokStep_tokens_inv {s s2 : TokSt} {c : Char} (h : tokStep s c = .ok s2)
    (hinv : ∀ u ∈ s.tokens, u ≠ [] ∧ u.length ≤ MAX_ARG_LENGTH) :
    ∀ u ∈ s2.tokens, u ≠ [] ∧ u.length ≤ MAX_ARG_LENGTH := by
  unfold tokStep at h
  split_ifs at h <;> cases h <;> intro u hu <;>
    [exact hinv u hu; exact hinv u hu; exact hinv u hu; exact hinv u hu;
     exact hinv u hu; skip; exact hinv u hu]
  simp only [List.mem_append, List.mem_singleton] at hu
  rcases hu with hu | rfl
  · exact hinv u hu
  · refine ⟨by assumption, by omega⟩

theorem tokLoop_tokens_inv {cs : Str} : ∀ {s s2 : TokSt},
    tokLoop s cs = .ok s2 →
    (∀ u ∈ s.tokens, u ≠ [] ∧ u.length ≤ MAX_ARG_LENGTH) →
    ∀ u ∈ s2.tokens, u ≠ [] ∧ u.length ≤ MAX_ARG_LENGTH := by
  induction cs with
  | nil =>
    intro s s2 h hinv
    simp only [tokLoop] at h
    injection h with h
    subst h
    exact hinv
  | cons c cs ih =>
    intro s s2 h hinv
    simp only [tokLoop] at h
    cases hstep : tokStep s c with
    | error e => rw [hstep] at h; exact absurd h (by simp)
    | ok s1 =>
      rw [hstep] at h
      exact ih h (tokStep_tokens_inv hstep hinv)

theorem tokStep_weight {s s2 : TokSt} {c : Char} (h : tokStep s c = .ok s2) :
    stWeight s2 ≤ stWeight s + 1 := by
  unfold tokStep at h
  split_ifs at h <;> cases h <;>
    simp only [stWeight, tokensWeight_append] <;>
    simp only [tokensWeight, List.foldr_cons, List.foldr_nil, List.length_append,
      List.length_cons, List.length_nil] <;>
    omega

theorem tokLoop_weight {cs : Str} : ∀ {s s2 : TokSt}, tokLoop s cs = .ok s2 →
    stWeight s2 ≤ stWeight s + cs.length := by
  induction cs with
  | nil =>
    intro s s2 h
    simp only [tokLoop] at h
    injection h with h
    subst h
    simp
  | cons c cs ih =>
    intro s s2 h
    simp only [tokLoop] at h
    cases hstep : tokStep s c with
    | error e => rw [hstep] at h; exact absurd h (by simp)
    | ok s1 =>
      rw [hstep] at h
      have h1 := tokStep_weight hstep
      have h2 := ih h
      simp only [List.length_cons]
      omega

theorem finishTokens_ok_facts {s : TokSt} {ts : List Str} (h : finishTokens s = .ok ts)
    (hinv : ∀ u ∈ s.tokens, u ≠ [] ∧ u.length ≤ MAX_ARG_LENGTH) :
    (∀ u ∈ ts, u ≠ [] ∧ u.length ≤ MAX_ARG_LENGTH) ∧ ts.length ≤ MAX_ARGS ∧
      (joinSpaces ts).length ≤ stWeight s := by
  unfold finishTokens at h
  by_cases hq1 : s.inSingleQuote = true
  · rw [if_pos hq1] at h; cases h
  · rw [if_neg hq1] at h
    by_cases hq2 : s.inDoubleQuote = true
    · rw [if_pos hq2] at h; cases h
    · rw [if_neg hq2] at h
      by_cases hcur : s.current = []
      · rw [if_pos hcur] at h
        dsimp only at h
        by_cases hmany : MAX_ARGS < s.tokens.length
        · rw [if_pos hmany] at h; cases h
        · rw [if_neg hmany] at h
          cases h
          refine ⟨hinv, Nat.not_lt.mp hmany, ?_⟩
          rcases eq_or_ne s.tokens [] with he | hne
          · rw [he]; simp [joinSpaces, stWeight]
          · have hj := joinSpaces_length hne
            simp only [stWeight]
            omega
      · rw [if_neg hcur] at h
        by_cases harg : MAX_ARG_LENGTH < s.current.length
        · rw [if_pos harg] at h
          dsimp only at h
          cases h
        · rw [if_neg harg] at h
          dsimp only at h
          by_cases hmany : MAX_ARGS < (s.tokens ++ [s.current]).length
          · rw [if_pos hmany] at h; cases h
          · rw [if_neg hmany] at h
            cases h
            refine ⟨?_, Nat.not_lt.mp hmany, ?_⟩
            · intro u hu
              simp only [List.mem_append, List.mem_singleton] at hu
              rcases hu with hu | rfl
              · exact hinv u hu
              · exact ⟨hcur, Nat.not_lt.mp harg⟩
            · have hne : s.tokens ++ [s.current] ≠ [] := by simp
              have hj := joinSpaces_length hne
              rw [tokensWeight_append] at hj
              simp only [tokensWeight, List.foldr_cons, List.foldr_nil] at hj
              simp only [stWeight, tokensWeight]
              omega

theorem tokenize_ok_facts {input : Str} {ts : List Str} (h : tokenize input = .ok ts) :
    (∀ u ∈ ts, u ≠ [] ∧ u.length ≤ MAX_ARG_LENGTH) ∧ ts.length ≤ MAX_ARGS ∧
      (joinSpaces ts).length ≤ MAX_COMMAND_LENGTH := by
  unfold tokenize at h
  split_ifs at h with hg
  cases hloop : tokLoop initTokSt input with
  | error e => rw [hloop] at h; cases h
  | ok s =>
    rw [hloop] at h
    have hinv := tokLoop_tokens_inv hloop (by intro u hu; simp [initTokSt] at hu)
    obtain ⟨f1, f2, f3⟩ := finishTokens_ok_facts h hinv
    refine ⟨f1, f2, ?_⟩
    have hw := tokLoop_weight hloop
    have hz : stWeight initTokSt = 0 := by simp [stWeight, initTokSt, tokensWeight]
    have hle := Nat.not_lt.mp hg
    omega

/-!
## Claim theorems: tokenizer
-/

/-- Claim C1, counterexample: tokenization is not idempotent on its own
re-joined output once a token contains a space produced by quoting.  The
input consisting of `a b` inside double quotes tokenizes to the single
token `a b`, but re-tokenizing the single-space join of that token list
yields the two tokens `a` and `b`. -/
theorem tokenize_rejoin_counterexample :
    tokenize [dquote, 'a', ' ', 'b', dquote] = .ok [['a', ' ', 'b']] ∧
    tokenize (joinSpaces [['a', ' ', 'b']]) = .ok [['a'], ['b']] ∧
    [['a'], ['b']] ≠ [['a', ' ', 'b']] := ⟨rfl, rfl, by decide⟩

/-- Claim C1, amended: if tokenize succeeds on an input and every
character of every produced token is plain (no whitespace, no quote of
either kind, no backslash), then tokenizing the single-space join of the
tokens succeeds and returns exactly the same tokens. -/
theorem tokenize_rejoin_plain_tokens (input : Str) (ts : List Str)
    (hok : tokenize input = .ok ts)
    (hplain : ∀ t ∈ ts, t.all plainChar = true) :
    tokenize (joinSpaces ts) = .ok ts := by
  obtain ⟨f1, f2, f3⟩ := tokenize_ok_facts hok
  exact tokenize_joinSpaces ts
    (fun u hu => ⟨(f1 u hu).1, (f1 u hu).2, hplain u hu⟩) f2 f3

/-- Witness for the amended claim C1 at a concrete input. -/
theorem tokenize_rejoin_plain_tokens_witness :
    tokenize (joinSpaces [['a', 'b'], ['c']]) = .ok [['a', 'b'], ['c']] :=
  tokenize_rejoin_plain_tokens ['a', 'b', ' ', 'c'] [['a', 'b'], ['c']] rfl (by decide)

/-- Claim C7: when the character scan of an input within the length limit
completes with a quote span still open, tokenize reports the unclosed
single-quote parse failure (checked first) or the unclosed double-quote
parse failure, never a successful token list. -/
theorem tokenize_unclosed_quote (input : Str) (s : TokSt)
    (hlen : input.length ≤ MAX_COMMAND_LENGTH)
    (hloop : tokLoop initTokSt input = .ok s)
    (hq : s.inSingleQuote = true ∨ s.inDoubleQuote = true) :
    tokenize input =
      .error (if s.inSingleQuote then .unclosedSingle else .unclosedDouble) := by
  rw [tokenize, if_neg (Nat.not_lt.mpr hlen), hloop]
  dsimp only
  unfold finishTokens
  by_cases h1 : s.inSingleQuote = true
  · rw [if_pos h1, if_pos h1]
  · rcases hq with hq | hq
    · exact absurd hq h1
    · rw [if_neg h1, if_pos hq, if_neg h1]

/-- Witness for claim C7 at a concrete input with an unclosed single
quote. -/
theorem tokenize_unclosed_quote_witness :
    tokenize [squote, 'a'] = .error .unclosedSingle := by
  have h := tokenize_unclosed_quote [squote, 'a'] ⟨[], ['a'], true, false, false⟩
    (by decide) rfl (Or.inl rfl)
  simpa using h

/-- Claim C10: an explicitly quoted empty string contributes no token,
because the tokenizer only emits the accumulated token when it is
non-empty: `a "" b` tokenizes to `a`, `b`, and an input that is only an
empty quoted span of either kind tokenizes to the empty token list. -/
theorem tokenize_empty_quoted_vanishes :
    tokenize ['a', ' ', dquote, dquote, ' ', 'b'] = .ok [['a'], ['b']] ∧
    tokenize [squote, squote] = .ok [] ∧
    tokenize [dquote, dquote] = .ok [] := ⟨rfl, rfl, rfl⟩

theorem ws_not_special {c : Char} (hw : jsWhitespace c = true) :
    (c == bslash) = false ∧ (c == squote) = false ∧ (c == dquote) = false := by
  refine ⟨?_, ?_, ?_⟩ <;>
  · rw [beq_eq_false_iff_ne]
    rintro rfl
    revert hw
    decide

theorem all_replicate {p : Char → Bool} {c : Char} (h : p c = true) (n : Nat) :
    (List.replicate n c).all p = true := by
  induction n with
  | zero => rfl
  | succ n ih => simp [List.replicate_succ, List.all_cons, h, ih]

theorem tokensWeight_replicate_x (n : Nat) :
    tokensWeight (List.replicate n (['x'] : Str)) = 2 * n := by
  induction n with
  | zero => rfl
  | succ n ih =>
    simp only [List.replicate_succ, tokensWeight, List.foldr_cons,
      List.length_singleton] at ih ⊢
    omega

theorem joinSpaces_replicate_x_length (n : Nat) (h : n ≠ 0) :
    (joinSpaces (List.replicate n (['x'] : Str))).length + 1 = 2 * n := by
  rw [joinSpaces_length (by simp [h]), tokensWeight_replicate_x]

theorem replicate_ne_nil {c : Char} {n : Nat} (h : n ≠ 0) : List.replicate n c ≠ [] := by
  intro he
  have hl := congrArg List.length he
  simp only [List.length_replicate, List.length_nil] at hl
  exact h hl

/-- Claim C6: the three tokenizer size limits are exactly 10000 input
characters, 10000 characters per token and 100 tokens, with distinct
parse failures: a 10000-character input succeeds as one token while a
10001-character input fails with the length-limit failure, and 100
space-separated single-character tokens succeed while 101 fail with the
count-limit failure. -/
theorem tokenize_size_limits :
    tokenize (List.replicate 10000 'x') = .ok [List.replicate 10000 'x'] ∧
    tokenize (List.replicate 10001 'x') = .error .commandTooLong ∧
    tokenize (joinSpaces (List.replicate 100 (['x'] : Str))) =
      .ok (List.replicate 100 (['x'] : Str)) ∧
    tokenize (joinSpaces (List.replicate 101 (['x'] : Str))) = .error .tooManyArgs := by
  refine ⟨?_, ?_, ?_, ?_⟩
  · exact tokenize_joinSpaces [List.replicate 10000 'x']
      (by
        intro u hu
        simp only [List.mem_singleton] at hu
        subst hu
        refine ⟨replicate_ne_nil (by norm_num), ?_, all_replicate (by decide) 10000⟩
        rw [List.length_replicate]
        norm_num [MAX_ARG_LENGTH])
      (by rw [List.length_singleton]; norm_num [MAX_ARGS])
      (by
        rw [show joinSpaces [List.replicate 10000 'x'] = List.replicate 10000 'x' from rfl,
          List.length_replicate]
        norm_num [MAX_COMMAND_LENGTH])
  · rw [tokenize,
      if_pos (by norm_num [MAX_COMMAND_LENGTH] :
        MAX_COMMAND_LENGTH < (List.replicate 10001 'x').length)]
  · exact tokenize_joinSpaces (List.replicate 100 ['x'])
      (by
        intro u hu
        have he := List.eq_of_mem_replicate hu
        subst he
        exact ⟨by simp, by norm_num [List.length_singleton, MAX_ARG_LENGTH], by decide⟩)
      (by rw [List.length_replicate]; norm_num [MAX_ARGS])
      (by
        have h := joinSpaces_replicate_x_length 100 (by norm_num)
        simp only [MAX_COMMAND_LENGTH]
        omega)
  · have hlen : (joinSpaces (List.replicate 101 (['x'] : Str))).length ≤
        MAX_COMMAND_LENGTH := by
      have h := joinSpaces_replicate_x_length 101 (by norm_num)
      simp only [MAX_COMMAND_LENGTH]
      omega
    have hrep : List.replicate 101 (['x'] : Str) = List.replicate 100 ['x'] ++ [['x']] :=
      List.replicate_succ' 100 ['x']
    rw [tokenize, if_neg (Nat.not_lt.mpr hlen), hrep]
    rw [tokLoop_joinSpaces_concat (List.replicate 100 ['x']) ['x'] initTokSt
      (by
        intro u hu
        rw [← hrep] at hu
        have he := List.eq_of_mem_replicate hu
        subst he
        exact ⟨by simp, by norm_num [MAX_ARG_LENGTH], by decide⟩)
      rfl rfl rfl rfl]
    dsimp only [initTokSt]
    unfold finishTokens
    rw [if_neg (by simp), if_neg (by simp), if_neg (by simp)]
    rw [if_neg (by norm_num [MAX_ARG_LENGTH] :
      ¬ MAX_ARG_LENGTH < (['x'] : Str).length)]
    dsimp only
    rw [if_pos]
    simp only [List.nil_append, List.length_append, List.length_replicate,
      List.length_singleton]
    norm_num [MAX_ARGS]

/-- Claim C2, counterexample: an input whose 101st token completes before
a later unclosed quote is reported with the unclosed-quote parse failure,
not the count-limit failure the claim predicts. -/
theorem tokenize_count_limit_counterexample :
    tokenize (joinSpaces (List.replicate 101 (['x'] : Str)) ++ [' ', squote]) =
      .error .unclosedSingle ∧
    TokError.unclosedSingle ≠ TokError.tooManyArgs := by
  refine ⟨?_, by decide⟩
  have hrep : List.replicate 101 (['x'] : Str) = List.replicate 100 ['x'] ++ [['x']] :=
    List.replicate_succ' 100 ['x']
  have hlen : (joinSpaces (List.replicate 101 (['x'] : Str)) ++ [' ', squote]).length ≤
      MAX_COMMAND_LENGTH := by
    have h := joinSpaces_replicate_x_length 101 (by norm_num)
    simp only [List.length_append, List.length_cons, List.length_nil, MAX_COMMAND_LENGTH]
    omega
  rw [tokenize, if_neg (Nat.not_lt.mpr hlen), hrep, tokLoop_append]
  rw [tokLoop_joinSpaces_concat (List.replicate 100 ['x']) ['x'] initTokSt
    (by
      intro u hu
      rw [← hrep] at hu
      have he := List.eq_of_mem_replicate hu
      subst he
      exact ⟨by simp, by norm_num [List.length_singleton, MAX_ARG_LENGTH], by decide⟩)
    rfl rfl rfl rfl]
  dsimp only [initTokSt]
  simp only [List.nil_append, tokLoop]
  rw [tokStep_space ⟨List.replicate 100 ['x'], ['x'], false, false, false⟩ rfl rfl rfl
    (by simp) (by norm_num [List.length_singleton, MAX_ARG_LENGTH])]
  dsimp only
  rw [show tokStep ⟨List.replicate 100 ['x'] ++ [['x']], [], false, false, false⟩ squote
      = .ok ⟨List.replicate 100 ['x'] ++ [['x']], [], true, false, false⟩ from rfl]
  dsimp only [tokLoop]
  unfold finishTokens
  rw [if_pos rfl]

/-- Claim C2, amended: the per-token length limit is enforced at the
moment a token completes mid-scan, but the token-count limit is checked
only after the whole scan and after the unclosed-quote checks, so a scan
ending inside a quote reports the unclosed-quote failure regardless of
how many tokens were already complete, and the count-limit failure is
reported exactly when the scan completes outside quotes with more than
100 tokens. -/
theorem tokenize_limit_check_order :
    (∀ (s : TokSt) (c : Char), s.isEscaped = false → s.inSingleQuote = false →
      s.inDoubleQuote = false → jsWhitespace c = true → s.current ≠ [] →
      MAX_ARG_LENGTH < s.current.length → tokStep s c = .error .argTooLong)
    ∧ (∀ (input : Str) (s : TokSt), input.length ≤ MAX_COMMAND_LENGTH →
      tokLoop initTokSt input = .ok s → s.inSingleQuote = true →
      tokenize input = .error .unclosedSingle)
    ∧ (∀ (input : Str) (s : TokSt), input.length ≤ MAX_COMMAND_LENGTH →
      tokLoop initTokSt input = .ok s → s.inSingleQuote = false →
      s.inDoubleQuote = false → s.current = [] → MAX_ARGS < s.tokens.length →
      tokenize input = .error .tooManyArgs) := by
  refine ⟨?_, ?_, ?_⟩
  · intro s c he h1 h2 hw hc hlen
    obtain ⟨hb, hs, hd⟩ := ws_not_special hw
    rw [tokStep, if_neg (by simp [he]), if_neg (by simp [hb]), if_neg (by simp [hs]),
      if_neg (by simp [hd]), if_pos (by simp [hw, h1, h2]), if_neg hc, if_pos hlen]
  · intro input s hlen hloop hq
    rw [tokenize, if_neg (Nat.not_lt.mpr hlen), hloop]
    dsimp only
    unfold finishTokens
    rw [if_pos hq]
  · intro input s hlen hloop h1 h2 hcur hmany
    rw [tokenize, if_neg (Nat.not_lt.mpr hlen), hloop]
    dsimp only
    unfold finishTokens
    rw [if_neg (by simp [h1]), if_neg (by simp [h2]), if_pos hcur]
    dsimp only
    rw [if_pos hmany]

/-- Witness for the amended claim C2 at concrete inputs: an over-long
completing token fails the step immediately; an unclosed quote after a
complete scan is reported; 101 complete tokens with balanced quoting
report the count-limit failure. -/
theorem tokenize_limit_check_order_witness :
    tokStep ⟨[], List.replicate 10001 'x', false, false, false⟩ ' ' = .error .argTooLong ∧
    tokenize [squote] = .error .unclosedSingle ∧
    tokenize (joinSpaces (List.replicate 101 (['x'] : Str)) ++ [' ']) =
      .error .tooManyArgs := by
  refine ⟨?_, ?_, ?_⟩
  · exact tokenize_limit_check_order.1 ⟨[], List.replicate 10001 'x', false, false, false⟩
      ' ' rfl rfl rfl (by decide) (replicate_ne_nil (by norm_num))
      (by rw [List.length_replicate]; norm_num [MAX_ARG_LENGTH])
  · exact tokenize_limit_check_order.2.1 [squote] ⟨[], [], true, false, false⟩
      (by decide) rfl rfl
  · refine tokenize_limit_check_order.2.2
      (joinSpaces (List.replicate 101 (['x'] : Str)) ++ [' '])
      ⟨List.replicate 101 (['x'] : Str), [], false, false, false⟩ ?_ ?_ rfl rfl rfl ?_
    · have h := joinSpaces_replicate_x_length 101 (by norm_num)
      simp only [List.length_append, List.length_cons, List.length_nil, MAX_COMMAND_LENGTH]
      omega
    · have hrep : List.replicate 101 (['x'] : Str) = List.replicate 100 ['x'] ++ [['x']] :=
        List.replicate_succ' 100 ['x']
      rw [hrep, tokLoop_append]
      rw [tokLoop_joinSpaces_concat (List.replicate 100 ['x']) ['x'] initTokSt
        (by
          intro u hu
          rw [← hrep] at hu
          have he := List.eq_of_mem_replicate hu
          subst he
          exact ⟨by simp, by norm_num [List.length_singleton, MAX_ARG_LENGTH], by decide⟩)
        rfl rfl rfl rfl]
      dsimp only [initTokSt]
      simp only [List.nil_append, tokLoop]
      rw [tokStep_space ⟨List.replicate 100 ['x'], ['x'], false, false, false⟩ rfl rfl rfl
        (by simp) (by norm_num [List.length_singleton, MAX_ARG_LENGTH])]
    · rw [List.length_replicate]
      norm_num [MAX_ARGS]

/-!
## Claim theorems: router
-/

theorem extractAux_split (tokens : List Str) :
    ∀ (reg : Option CommandRegistry) (acc : List Str),
    ∃ p r, extractCommandPathAux reg tokens acc = (acc ++ p, r) ∧ p ++ r = tokens := by
  induction tokens with
  | nil =>
    intro reg acc
    exact ⟨[], [], by simp [extractCommandPathAux], rfl⟩
  | cons t rest ih =>
    intro reg acc
    by_cases hd : startsWithDash t = true
    · exact ⟨[], t :: rest, by simp [extractCommandPathAux, hd], rfl⟩
    · cases reg with
      | none => exact ⟨[], t :: rest, by simp [extractCommandPathAux, hd], rfl⟩
      | some r =>
        cases hl : lookupReg r t with
        | none => exact ⟨[], t :: rest, by simp [extractCommandPathAux, hd, hl], rfl⟩
        | some cmd =>
          obtain ⟨p, r2, he, hs⟩ := ih cmd.subcommands (acc ++ [t])
          refine ⟨t :: p, r2, ?_, by simp [hs]⟩
          simp [extractCommandPathAux, hd, hl, he]

/-- Claim C3: the router scans tokens left to right, never reordering
them: the matched path is always a prefix of the tokens with everything
from the stopping point onward returned untouched; a token beginning
with a dash always stops the scan immediately; and on the nested
example registry the two spec examples hold. -/
theorem extractCommandPath_spec :
    (∀ (registry : CommandRegistry) (tokens : List Str),
      (extractCommandPath registry tokens).1 ++ (extractCommandPath registry tokens).2
        = tokens)
    ∧ (∀ (registry : CommandRegistry) (t : Str) (rest : List Str),
      startsWithDash t = true → extractCommandPath registry (t :: rest) = ([], t :: rest))
    ∧ extractCommandPath regABC [['a'], ['b'], ['c'], ['-', '-', 'x'], ['1']]
      = ([['a'], ['b'], ['c']], [['-', '-', 'x'], ['1']])
    ∧ extractCommandPath regABC [['a'], ['-', '-', 'h', 'e', 'l', 'p'], ['b']]
      = ([['a']], [['-', '-', 'h', 'e', 'l', 'p'], ['b']]) := by
  refine ⟨?_, ?_, rfl, rfl⟩
  · intro registry tokens
    obtain ⟨p, r, he, hs⟩ := extractAux_split tokens (some registry) []
    rw [extractCommandPath, he]
    simpa using hs
  · intro registry t rest hdash
    rw [extractCommandPath]
    simp [extractCommandPathAux, hdash]

/-- Witness for claim C3 at a concrete dash-leading token. -/
theorem extractCommandPath_spec_witness :
    extractCommandPath regABC [['-', '-', 'x'], ['a']] = ([], [['-', '-', 'x'], ['a']]) :=
  extractCommandPath_spec.2.1 regABC ['-', '-', 'x'] [['a']] rfl

theorem findCommandWalk_deepest (rest : List Str) : ∀ n : CommandDefinition,
    ∃ k, k ≤ rest.length ∧ nodeFromExact n (rest.take k) = some (findCommandWalk n rest) ∧
      ∀ j, k < j → j ≤ rest.length → nodeFromExact n (rest.take j) = none := by
  induction rest with
  | nil =>
    intro n
    refine ⟨0, by simp, by simp [nodeFromExact, findCommandWalk], ?_⟩
    intro j hj1 hj2
    simp only [List.length_nil] at hj2
    omega
  | cons p rest ih =>
    intro n
    cases hsub : n.subcommands with
    | none =>
      refine ⟨0, by simp, by simp [nodeFromExact, findCommandWalk, hsub], ?_⟩
      intro j hj1 hj2
      cases j with
      | zero => omega
      | succ j2 => simp only [List.take_succ_cons, nodeFromExact, hsub]
    | some sub =>
      cases hl : lookupReg sub p with
      | none =>
        refine ⟨0, by simp, by simp [nodeFromExact, findCommandWalk, hsub, hl], ?_⟩
        intro j hj1 hj2
        cases j with
        | zero => omega
        | succ j2 => simp only [List.take_succ_cons, nodeFromExact, hsub, hl]
      | some next =>
        obtain ⟨k, hk1, hk2, hk3⟩ := ih next
        refine ⟨k + 1, by simpa using hk1, ?_, ?_⟩
        · simp only [List.take_succ_cons, nodeFromExact, hsub, hl]
          rw [hk2]
          simp [findCommandWalk, hsub, hl]
        · intro j hj1 hj2
          cases j with
          | zero => omega
          | succ j2 =>
            simp only [List.take_succ_cons, nodeFromExact, hsub, hl]
            exact hk3 j2 (by omega) (by simpa using hj2)

/-- Claim C8: findCommand returns none exactly when the path is empty or
its first segment is not a top-level command name; otherwise it returns
the node reached by the longest prefix of the path that exists in the
tree: some k between 1 and the path length such that the node sits at
exactly the first k segments and every strictly longer prefix of the
path has no node. -/
theorem findCommand_deepest_match (registry : CommandRegistry) (path : List Str) :
    (findCommand registry path = none ↔
      path = [] ∨ ∃ p0 rest, path = p0 :: rest ∧ lookupReg registry p0 = none)
    ∧ (∀ node, findCommand registry path = some node →
      ∃ k, 1 ≤ k ∧ k ≤ path.length ∧
        nodeAtExactPath registry (path.take k) = some node ∧
        ∀ j, k < j → j ≤ path.length → nodeAtExactPath registry (path.take j) = none) := by
  cases path with
  | nil =>
    constructor
    · simp [findCommand]
    · intro node h
      rw [findCommand] at h
      cases h
  | cons p0 rest =>
    cases hl : lookupReg registry p0 with
    | none =>
      constructor
      · constructor
        · intro _
          exact Or.inr ⟨p0, rest, rfl, hl⟩
        · intro _
          simp [findCommand, hl]
      · intro node h
        simp [findCommand, hl] at h
    | some first =>
      constructor
      · constructor
        · intro h
          simp [findCommand, hl] at h
        · rintro (h | ⟨q0, qrest, heq, hlq⟩)
          · cases h
          · injection heq with h1 h2
            subst h1
            rw [hlq] at hl
            cases hl
      · intro node h
        simp only [findCommand, hl] at h
        injection h with h
        obtain ⟨k, hk1, hk2, hk3⟩ := findCommandWalk_deepest rest first
        refine ⟨k + 1, by omega, by simpa using hk1, ?_, ?_⟩
        · simp only [List.take_succ_cons, nodeAtExactPath, hl]
          rw [hk2, h]
        · intro j hj1 hj2
          cases j with
          | zero => omega
          | succ j2 =>
            simp only [List.take_succ_cons, nodeAtExactPath, hl]
            exact hk3 j2 (by omega) (by simpa using hj2)

/-- Witness for claim C8: an unknown top-level segment yields none. -/
theorem findCommand_deepest_match_witness :
    findCommand regABC [['z']] = none :=
  (findCommand_deepest_match regABC [['z']]).1.mpr (Or.inr ⟨['z'], [], rfl, rfl⟩)

/-!
## Claim theorems: argument parser
-/

/-- Claim C5: repeated occurrences of an array-kind option append to the
accumulating list in encounter order, while a non-array field is
overwritten so only the last value survives; concretely, two `--tag`
occurrences produce the two-element list and two `--x` occurrences leave
only the second value. -/
theorem parseArgs_array_accumulates :
    (∀ (raw : RawMap) (name value : Str) (schema : Zod) (vs : List Value),
      isArraySchema schema = true → lookupRaw raw name = some (.varr vs) →
      setArgValue raw name value schema = setRaw raw name (.varr (vs ++ [.vstr value])))
    ∧ (∀ (raw : RawMap) (name value : Str) (schema : Zod),
      isArraySchema schema = true → (∀ vs, lookupRaw raw name ≠ some (.varr vs)) →
      setArgValue raw name value schema = setRaw raw name (.varr [.vstr value]))
    ∧ (∀ (raw : RawMap) (name value : Str) (schema : Zod),
      isArraySchema schema = false →
      setArgValue raw name value schema = setRaw raw name (.vstr value))
    ∧ parseArgs [['-', '-', 't', 'a', 'g'], ['a'], ['-', '-', 't', 'a', 'g'], ['b']] defsTag
      = .ok [(tagName, .varr [.vstr ['a'], .vstr ['b']])]
    ∧ parseArgs [['-', '-', 'x'], ['a'], ['-', '-', 'x'], ['b']] defsX
      = .ok [(xName, .vstr ['b'])] := by
  refine ⟨?_, ?_, ?_, rfl, rfl⟩
  · intro raw name value schema vs ha hl
    rw [setArgValue, if_pos ha, hl]
  · intro raw name value schema ha hnl
    rw [setArgValue, if_pos ha]
    cases hl : lookupRaw raw name with
    | none => rfl
    | some v =>
      cases v with
      | vstr a => rfl
      | vbool b => rfl
      | vnum n => rfl
      | varr vs => exact absurd hl (hnl vs)
  · intro raw name value schema ha
    rw [setArgValue, if_neg (by simp [ha])]

set_option maxHeartbeats 1000000 in
/-- Claim C9: a token exactly equal to the end-of-options marker makes
the scan append every remaining token to the positional-candidate list
verbatim and stop successfully, so nothing after the marker can raise an
option error; concretely, option-looking tokens after the marker are
taken as positional data. -/
theorem parseArgs_end_of_options :
    (∀ (defs : ArgsDef) (rest : List Str) (st : ScanSt),
      scanTokens defs (dashDash :: rest) st = .ok ⟨st.raw, st.positionals ++ rest⟩)
    ∧ parseArgs [dashDash, ['-', '-', 'n', 'o', 't'], ['-', 'x']] defsFile
      = .ok [(fileName, .vstr ['-', '-', 'n', 'o', 't'])] := by
  refine ⟨?_, rfl⟩
  intro defs rest st
  show scanTokens defs (('-' :: '-' :: ([] : Str)) :: rest) st = _
  rw [scanTokens.eq_2, if_pos (show (['-', '-'] : Str) = dashDash from rfl)]

theorem splitEq_not_mem {cs : Str} (h : '=' ∉ cs) : splitEq cs = (cs, none) := by
  induction cs with
  | nil => rfl
  | cons c rest ih =>
    have hc : ¬(c = '=') := by
      intro he
      exact h (by rw [he]; exact List.mem_cons_self _ _)
    rw [splitEq, if_neg hc, ih (fun hm => h (List.mem_cons_of_mem c hm))]

theorem underscore_no_dash (key : Str) :
    underscore ('n' :: 'o' :: '-' :: key) = 'n' :: 'o' :: '_' :: underscore key := rfl

/-- Claim C4: for a token of the form `--no-<key>` with no inline value:
a field literally named `no_<key>` (after hyphen mapping) wins and the
token is handled as that ordinary option; otherwise, when `<key>` names
a boolean-kind field the scan records the field as false and continues,
when it names a non-boolean field parseArgs fails with the
"can only be used with boolean flags" validation failure, and when it
names nothing parseArgs fails with the unknown-option validation
failure; concretely, `--no-verbose` against a defaulted boolean flag
parses to false. -/
theorem parseArgs_no_negation (defs : ArgsDef) (key : Str)
    (hk : key ≠ []) (hne : '=' ∉ key) :
    (∀ s2, lookupDef defs ('n' :: 'o' :: '_' :: underscore key) = none →
      lookupDef defs (underscore key) = some s2 → isBooleanSchema s2.schema = true →
      ∀ (st : ScanSt) (rest : List Str),
        scanTokens defs (('-' :: '-' :: 'n' :: 'o' :: '-' :: key) :: rest) st
          = scanTokens defs rest
              ⟨setRaw st.raw (underscore key) (.vbool false), st.positionals⟩)
    ∧ (∀ s2, lookupDef defs ('n' :: 'o' :: '_' :: underscore key) = none →
      lookupDef defs (underscore key) = some s2 → isBooleanSchema s2.schema = false →
      parseArgs [('-' :: '-' :: 'n' :: 'o' :: '-' :: key)] defs
        = .error (.noFlagOnly key))
    ∧ (lookupDef defs ('n' :: 'o' :: '_' :: underscore key) = none →
      lookupDef defs (underscore key) = none →
      parseArgs [('-' :: '-' :: 'n' :: 'o' :: '-' :: key)] defs
        = .error (.unknownLong ('n' :: 'o' :: '-' :: key)))
    ∧ (∀ s2, lookupDef defs ('n' :: 'o' :: '_' :: underscore key) = some s2 →
      isFlagSchema s2.schema = true →
      ∀ (st : ScanSt) (rest : List Str),
        scanTokens defs (('-' :: '-' :: 'n' :: 'o' :: '-' :: key) :: rest) st
          = scanTokens defs rest
              ⟨setRaw st.raw ('n' :: 'o' :: '_' :: underscore key) (.vbool true),
                st.positionals⟩)
    ∧ parseArgs [('-' :: '-' :: 'n' :: 'o' :: '-' :: verboseName)] defsVerbose
      = .ok [(verboseName, .vbool false)] := by
  have hbody : ('=' : Char) ∉ ('n' :: 'o' :: '-' :: key) := by
    intro hm
    rcases List.mem_cons.mp hm with h | hm
    · exact absurd h (by decide)
    rcases List.mem_cons.mp hm with h | hm
    · exact absurd h (by decide)
    rcases List.mem_cons.mp hm with h | hm
    · exact absurd h (by decide)
    exact hne hm
  have hsp := splitEq_not_mem hbody
  refine ⟨?_, ?_, ?_, ?_, rfl⟩
  · intro s2 hnone hsome hbool st rest
    rw [scanTokens.eq_2, if_neg (by simp [dashDash]), hsp]
    dsimp only
    rw [underscore_no_dash, hnone]
    dsimp only
    rw [show noDashTail ('n' :: 'o' :: '-' :: key) = some key from rfl]
    dsimp only
    rw [if_neg hk, hsome]
    dsimp only
    rw [hbool, if_pos rfl]
  · intro s2 hnone hsome hbool
    unfold parseArgs
    rw [scanTokens.eq_2, if_neg (by simp [dashDash]), hsp]
    dsimp only
    rw [underscore_no_dash, hnone]
    dsimp only
    rw [show noDashTail ('n' :: 'o' :: '-' :: key) = some key from rfl]
    dsimp only
    rw [if_neg hk, hsome]
    dsimp only
    rw [hbool, if_neg (by simp)]
  · intro hnone hn2
    unfold parseArgs
    rw [scanTokens.eq_2, if_neg (by simp [dashDash]), hsp]
    dsimp only
    rw [underscore_no_dash, hnone]
    dsimp only
    rw [show noDashTail ('n' :: 'o' :: '-' :: key) = some key from rfl]
    dsimp only
    rw [if_neg hk, hn2]
  · intro s2 hsome hflag st rest
    rw [scanTokens.eq_2, if_neg (by simp [dashDash]), hsp]
    dsimp only
    rw [underscore_no_dash, hsome]
    dsimp only
    rw [hflag, if_pos rfl]

/-- Witness for claim C4 at concrete schemas: negation on a boolean
field records false; on a non-boolean field and on an unknown name the
two validation failures are produced; a literal `no_`-named flag wins. -/
theorem parseArgs_no_negation_witness :
    scanTokens defsVerbose [['-', '-', 'n', 'o', '-', 'v', 'e', 'r', 'b', 'o', 's', 'e']]
        ⟨[], []⟩
      = .ok ⟨[(verboseName, .vbool false)], []⟩ ∧
    parseArgs [['-', '-', 'n', 'o', '-', 'x']] defsX = .error (.noFlagOnly xName) ∧
    parseArgs [['-', '-', 'n', 'o', '-', 'z']] defsX
      = .error (.unknownLong ['n', 'o', '-', 'z']) := by
  refine ⟨?_, ?_, ?_⟩
  · have h := (parseArgs_no_negation defsVerbose verboseName (by decide) (by decide)).1
      ⟨.zdefault .zboolean (.vbool true), noMeta⟩ rfl rfl rfl ⟨[], []⟩ []
    exact h
  · exact (parseArgs_no_negation defsX xName (by decide) (by decide)).2.1
      ⟨.zstring, noMeta⟩ rfl rfl rfl
  · exact (parseArgs_no_negation defsX ['z'] (by decide) (by decide)).2.2.1 rfl rfl

/-- Witness for claim C5 applying the general accumulation parts at
concrete raw maps and schemas. -/
theorem parseArgs_array_accumulates_witness :
    setArgValue [(tagName, .varr [.vstr ['a']])] tagName ['b'] (.zarray .zstring)
      = setRaw [(tagName, .varr [.vstr ['a']])] tagName
          (.varr [.vstr ['a'], .vstr ['b']]) ∧
    setArgValue [] xName ['a'] .zstring = setRaw [] xName (.vstr ['a']) :=
  ⟨parseArgs_array_accumulates.1 [(tagName, .varr [.vstr ['a']])] tagName ['b']
      (.zarray .zstring) [.vstr ['a']] rfl rfl,
    parseArgs_array_accumulates.2.2.1 [] xName ['a'] .zstring rfl⟩

end Acli
